/-
Verification of the multi-madhab RAG retrieval and orchestration subsystem
of the al-muwatta-ai repository.

Shallow embedding notes:
- Python strings are Lean `String`s; `kw in s` is code-point substring search,
  `str.lower()` is modelled by mapping `Char.toLower` (ASCII case folding:
  every input exercised here is ASCII or Arabic, and Arabic has no case),
  `str.strip()` is `String.trim`.
- Python floats (similarity scores) are modelled as rationals `ℚ`.
- The Qdrant client and the sentence-transformer embedder are modelled as
  explicit function parameters (`ClientSearch`, `embed`); a call that can
  raise is an `Except` value.
- Python's stable `list.sort(key=k, reverse=True)` is modelled by Mathlib's
  `List.insertionSort` with the reflexive-on-ties relation
  "key of the left argument is lexicographically ≥ key of the right one":
  both are stable sorts of the same total preorder, hence produce the same
  list.
-/
import Mathlib

set_option maxRecDepth 10000

/-! ## String utilities (Python `in`, `lower`, `strip`) -/

/-- `isPrefixList n h` : the char list `n` is a prefix of `h`. -/
def isPrefixList : List Char → List Char → Bool
  | [], _ => true
  | _ :: _, [] => false
  | a :: as, b :: bs => a = b && isPrefixList as bs

/-- Auxiliary substring scan over the tails of the haystack. -/
def containsSubAux (needle : List Char) : List Char → Bool
  | [] => needle.isEmpty
  | c :: rest => isPrefixList needle (c :: rest) || containsSubAux needle rest

/-- Python's `needle in hay` on strings: code-point substring containment. -/
def containsSub (needle hay : String) : Bool :=
  containsSubAux needle.data hay.data

/-- Python's `str.lower()` (ASCII case folding; Arabic text is unaffected). -/
def lowerStr (s : String) : String := ⟨s.data.map Char.toLower⟩

/-- Python's `str.strip()`: remove leading and trailing whitespace. -/
def stripStr (s : String) : String :=
  ⟨((s.data.dropWhile Char.isWhitespace).reverse.dropWhile Char.isWhitespace).reverse⟩

/-! ## Question classifier (src/utils/question_classifier.py) -/

/-- Fiqh-related keywords in English (`fiqh_keywords_en`). -/
def fiqh_keywords_en : List String :=
  ["ruling", "rulings", "permissible", "haram", "halal", "allowed",
   "forbidden", "makruh", "mustahab", "wajib", "fard", "sunnah",
   "madhab", "maliki", "fiqh", "jurisprudence", "islamic law",
   "can i", "is it allowed", "is it permissible", "what is the ruling",
   "how to pray", "how to perform", "wudu", "ghusl", "tayammum",
   "zakat", "nisab", "hajj", "umrah", "fast", "fasting", "sawm",
   "marriage", "divorce", "inheritance", "business", "transaction",
   "interest", "riba", "marriage contract", "wali", "mahr"]

/-- Fiqh-related keywords in Arabic (`fiqh_keywords_ar`). -/
def fiqh_keywords_ar : List String :=
  ["حكم", "أحكام", "حلال", "حرام", "مكروه", "مستحب", "واجب", "فرض",
   "سنة", "مذهب", "المالكية", "فقه", "شرع", "يجوز", "جائز", "ممنوع",
   "كيف أصلي", "كيفية", "وضوء", "غسل", "تيمم", "زكاة", "نصاب",
   "حج", "عمرة", "صيام", "صوم", "رمضان", "نكاح", "زواج", "طلاق",
   "ميراث", "معاملات", "بيع", "شراء", "ربا", "فوائد", "ولي", "مهر"]

/-- Quran-related keywords (`quran_keywords`). -/
def quran_keywords : List String :=
  ["surah", "sura", "ayah", "verse", "quran", "qur\x27an", "recite",
   "سورة", "آية", "قرآن", "اتل", "قراءة", "فاتحة", "بقرة", "إخلاص"]

/-- Hadith-related keywords (`hadith_keywords`). -/
def hadith_keywords : List String :=
  ["hadith", "hadis", "narration", "prophet said", "رسول الله",
   "حديث", "أحاديث", "روى", "رواية", "النبي", "صلى الله عليه وسلم"]

/-- `is_fiqh_question` from `src/utils/question_classifier.py`: bilingual
keyword classification with fixed priority order.  Note that, as in the
source, the Arabic fiqh list is matched against the *original* question
while the other lists are matched against the lowercased question. -/
def is_fiqh_question (question : String) : Bool × String :=
  let question_lower := lowerStr question
  if fiqh_keywords_en.any (fun kw => containsSub kw question_lower) then
    (true, "fiqh")
  else if fiqh_keywords_ar.any (fun kw => containsSub kw question) then
    (true, "fiqh")
  else if quran_keywords.any (fun kw => containsSub kw question_lower) then
    (false, "quran")
  else if hadith_keywords.any (fun kw => containsSub kw question_lower) then
    (false, "hadith")
  else
    (false, "general")

/-! ## Madhab normalization (src/services/fiqh_rag_service.py) -/

/-- `MADHAB_KEYS` from `fiqh_rag_service.py`. -/
def MADHAB_KEYS : List String := ["maliki", "hanafi", "shafii", "hanbali"]

/-- `normalize_madhab_name`: canonicalize English/Arabic/case variants to one
of the four canonical keys, or `none` for anything unrecognized. -/
def normalize_madhab_name (name : String) : Option String :=
  if name = "" then none
  else
    let n := lowerStr (stripStr name)
    if ["maliki", "maliky"].contains n then some "maliki"
    else if ["hanafi", "hanafy"].contains n then some "hanafi"
    else if ["shafii", "shafi", "shafi\x27i", "shafei", "shafe\x27i"].contains n then
      some "shafii"
    else if ["hanbali", "hanbaly"].contains n then some "hanbali"
    else if ["مالكي", "المالكي"].contains n then some "maliki"
    else if ["حنفي", "الحنفي"].contains n then some "hanafi"
    else if ["شافعي", "الشافعي"].contains n then some "shafii"
    else if ["حنبلي", "الحنبلي"].contains n then some "hanbali"
    else none

/-- `collection_for_madhab`: canonical key to Qdrant collection name;
the `ValueError` raised on a non-canonical key is modelled as `none`. -/
def collection_for_madhab (madhab_key : String) : Option String :=
  if MADHAB_KEYS.contains madhab_key then some (madhab_key ++ "_fiqh")
  else none

/-- The madhab-selection normalization shared (textually duplicated) by
`FiqhRAG.search` and `OrchestratorService.search_madhabs_separately`:
`madhabs or MADHAB_KEYS`, normalize each entry, drop the unrecognized ones,
and fall back to all four keys when nothing survives.  `none` models the
Python `None` argument. -/
def selectMadhabs (madhabs : Option (List String)) : List String :=
  let base :=
    match madhabs with
    | none => MADHAB_KEYS
    | some l => if l.isEmpty then MADHAB_KEYS else l
  let selected := base.map normalize_madhab_name
  let selected2 := selected.filterMap id
  if selected2.isEmpty then MADHAB_KEYS else selected2

/-! ## Vector-store data model (src/services/fiqh_rag_service.py) -/

/-- A stored point's payload.  In Python this is a dict; each optional key is
an `Option` field, `none` standing for an absent key (`payload.get` then
returns its default). -/
structure Payload where
  text : Option String
  topic : Option String
  category : Option String
  source : Option String
  references : Option String
  madhab : Option String
  book_title : Option String
  author : Option String
  page : Option Nat
  chunk_index : Option Nat
deriving DecidableEq, Repr

/-- A payload with no keys set (Python `{}`; also stands for a `None`
payload, which `r.payload or {}` maps to `{}`). -/
def emptyPayload : Payload :=
  ⟨none, none, none, none, none, none, none, none, none, none⟩

/-- One scored point returned by the vector-store `search` call
(qdrant `ScoredPoint`): id, payload and cosine-similarity score.
Scores are rationals standing in for Python floats. -/
structure Hit where
  id : String
  payload : Payload
  score : ℚ
deriving DecidableEq, Repr

/-- The vector-store search capability
`client.search(collection_name, query_vector, limit, query_filter,
score_threshold)`.  The filter is the optional category value.  `Except`
models a call that raises. -/
def ClientSearch : Type :=
  String → List ℚ → Nat → Option String → ℚ → Except Unit (List Hit)

instance {ε α : Type} [DecidableEq ε] [DecidableEq α] :
    DecidableEq (Except ε α) := fun a b =>
  match a, b with
  | Except.error e1, Except.error e2 =>
    if h : e1 = e2 then isTrue (by rw [h])
    else isFalse (by intro c; injection c with c2; exact h c2)
  | Except.error _, Except.ok _ => isFalse (by intro c; exact Except.noConfusion c)
  | Except.ok _, Except.error _ => isFalse (by intro c; exact Except.noConfusion c)
  | Except.ok v1, Except.ok v2 =>
    if h : v1 = v2 then isTrue (by rw [h])
    else isFalse (by intro c; injection c with c2; exact h c2)

/-- The `metadata` sub-dict of a merged search result
(`FiqhRAG.search`, lines 349-359). -/
structure SearchMeta where
  topic : String
  category : String
  source : String
  references : String
  madhab : String
  book_title : String
  author : String
  page : Option Nat
  chunk_index : Option Nat
deriving DecidableEq, Repr

/-- One element of the merged list returned by `FiqhRAG.search`. -/
structure MergedResult where
  text : String
  metadata : SearchMeta
  score : ℚ
  id : String
deriving DecidableEq, Repr

/-- The sort key of one collected `(madhab, result)` pair:
`(float(score or 0.0), madhab, str(id))` (lines 336-340). -/
def sortKey (p : String × Hit) : ℚ × String × String :=
  (p.2.score, p.1, p.2.id)

/-- Python's `<` on strings: lexicographic by code point, a proper prefix
preceding its extensions. -/
def strLtB : List Char → List Char → Bool
  | [], [] => false
  | [], _ :: _ => true
  | _ :: _, [] => false
  | a :: as, b :: bs => if a = b then strLtB as bs else decide (a < b)

/-- Python's `<=` on strings. -/
def strLeB (a b : String) : Bool := a == b || strLtB a.data b.data

/-- Boolean lexicographic `≤` on sort keys, using the code-point order on
strings (Python tuple/str comparison). -/
def pairKeyLe (p q : ℚ × String × String) : Bool :=
  decide (p.1 < q.1) ||
    (decide (p.1 = q.1) &&
      (strLtB p.2.1.data q.2.1.data ||
        (decide (p.2.1 = q.2.1) && strLeB p.2.2 q.2.2)))

/-- "May come before" relation of the Python
`per_collection_results.sort(key=..., reverse=True)`: descending
lexicographic on `(score, madhab, id)`, reflexive on ties so that a stable
sort keeps the original order of equal keys. -/
def descBefore (a b : String × Hit) : Prop :=
  pairKeyLe (sortKey b) (sortKey a) = true

instance : DecidableRel descBefore := fun a b => by
  unfold descBefore; infer_instance

/-- The fan-out loop of `FiqhRAG.search` (lines 316-331): for each selected
key, search that collection; an exception from the client is logged and
skipped, while a non-canonical key would raise `ValueError` past the inner
`try` (modelled as `Except.error`, caught only by the outer handler). -/
def collectPairs (client : ClientSearch) (qVec : List ℚ) (n : Nat)
    (cf : Option String) (thr : ℚ) : List String → Except Unit (List (String × Hit))
  | [] => Except.ok []
  | key :: rest =>
    match collection_for_madhab key with
    | none => Except.error ()
    | some cname =>
      let here :=
        match client cname qVec n cf thr with
        | Except.ok results => results.map (fun r => (key, r))
        | Except.error _ => []
      match collectPairs client qVec n cf thr rest with
      | Except.error e => Except.error e
      | Except.ok tail => Except.ok (here ++ tail)

/-- Build one merged output entry from a collected `(madhab, result)` pair
(lines 344-363): payload fields with dict-get defaults, `madhab` overwritten
by the collection key. -/
def mkMerged (p : String × Hit) : MergedResult :=
  { text := p.2.payload.text.getD ""
    metadata :=
      { topic := p.2.payload.topic.getD ""
        category := p.2.payload.category.getD ""
        source := p.2.payload.source.getD ""
        references := p.2.payload.references.getD ""
        madhab := p.1
        book_title := p.2.payload.book_title.getD ""
        author := p.2.payload.author.getD ""
        page := p.2.payload.page
        chunk_index := p.2.payload.chunk_index }
    score := p.2.score
    id := p.2.id }

/-- `FiqhRAG.search`: empty-query short-circuit, madhab selection, one query
embedding, per-collection fan-out, global stable re-rank in descending
`(score, madhab, id)` order, truncation to `n_results`, payload extraction.
The outer `try/except` returning `[]` catches the (unreachable) `ValueError`
from `collection_for_madhab`. -/
def FiqhRAG_search (embed : String → List ℚ) (client : ClientSearch)
    (query : String) (n_results : Nat) (madhabs : Option (List String))
    (category_filter : Option String) (score_threshold : ℚ) : List MergedResult :=
  if stripStr query = "" then []
  else
    let selected := selectMadhabs madhabs
    let qVec := embed query
    match collectPairs client qVec n_results category_filter score_threshold selected with
    | Except.error _ => []
    | Except.ok pairs =>
      ((List.insertionSort descBefore pairs).take n_results).map mkMerged

/-! ## Context formatting (`FiqhRAG.get_relevant_context`) -/

/-- Two-decimal fixed-point rendering of a score, standing in for Python's
`f"{score:.2f}"` on the float score (scores are modelled as rationals).
The rendered integer is `⌊100·q + 1/2⌋`, computed on the reduced
numerator/denominator: `⌊(200·num + den) / (2·den)⌋`. -/
def formatScore (q : ℚ) : String :=
  let n : ℤ := Int.fdiv (200 * q.num + (q.den : ℤ)) (2 * (q.den : ℤ))
  let sign := if n < 0 then "-" else ""
  let m : ℕ := n.natAbs
  sign ++ toString (m / 100) ++ "." ++
    (if m % 100 < 10 then "0" else "") ++ toString (m % 100)

/-- One formatted context block (lines 391-399), for 1-based source index
`i`.  All metadata keys are present on a merged result, so the Python
`dict.get` defaults (`'Unknown'`, `'General'`) never fire here. -/
def formatBlock (i : Nat) (r : MergedResult) : String :=
  "---\n" ++
  "**[Source " ++ toString i ++ "]** " ++ r.metadata.topic ++ "\n" ++
  "**Madhab**: " ++ r.metadata.madhab ++ " | **Category**: " ++
    r.metadata.category ++ " | " ++
  "**Relevance**: " ++ formatScore r.score ++ "\n" ++
  "**References**: " ++ r.metadata.references ++ "\n\n" ++
  stripStr r.text ++ "\n" ++
  "---\n"

/-- The blocks of `enumerate(results, 1)`. -/
def formatBlocks : Nat → List MergedResult → List String
  | _, [] => []
  | i, r :: rs => formatBlock i r :: formatBlocks (i + 1) rs

/-- The accumulation loop of `get_relevant_context` (lines 389-403): keep
whole blocks while the running total stays within the bound, stop (`break`)
at the first block that would exceed it. -/
def takeParts (L : Nat) : Nat → List String → List String
  | _, [] => []
  | total, b :: bs =>
    if total + b.length > L then []
    else b :: takeParts L (total + b.length) bs

/-- Python's `sep.join(parts)`. -/
def joinSep (sep : String) : List String → String
  | [] => ""
  | [a] => a
  | a :: b :: t => a ++ sep ++ joinSep sep (b :: t)

/-- `FiqhRAG.get_relevant_context`: search with a fixed internal count of 5
and score threshold 0.3, then join whole formatted blocks within the length
bound. -/
def get_relevant_context (embed : String → List ℚ) (client : ClientSearch)
    (query : String) (max_context_length : Nat)
    (madhabs : Option (List String)) : String :=
  let results := FiqhRAG_search embed client query 5 madhabs none (mkRat 3 10)
  if results.isEmpty then ""
  else joinSep "\n" (takeParts max_context_length 0 (formatBlocks 1 results))

/-! ## Ingestion (`FiqhRAG.add_document`) -/

/-- The `metadata` dict passed to `add_document`: the required `madhab` key
plus the recommended optional keys. -/
structure Metadata where
  madhab : Option String
  topic : Option String
  category : Option String
  source : Option String
  references : Option String
  book_title : Option String
  author : Option String
  page : Option Nat
  chunk_index : Option Nat
deriving DecidableEq, Repr

/-- The `PointStruct` built by `add_document`. -/
structure DocPoint where
  id : String
  vector : List ℚ
  payload : Payload
deriving DecidableEq, Repr

/-- `FiqhRAG.add_document` (lines 240-276).  The embedder outcome, a failing
`_ensure_collection`, a failing `client.upsert` and the fresh `uuid4` id are
explicit parameters.  Every raised exception (including the `ValueError` for
a bad madhab) is caught by the function's own handler, which returns
`False`; on success the performed upsert `(collection_name, point)` is
reported alongside `True`. -/
def add_document (embedResult : Except Unit (List ℚ)) (ensureFails : Bool)
    (upsertFails : Bool) (newId : String) (text : String)
    (metadata : Metadata) : Bool × Option (String × DocPoint) :=
  let madhab_key :=
    match metadata.madhab with
    | none => none
    | some raw => if raw = "" then none else normalize_madhab_name raw
  match madhab_key with
  | none => (false, none)
  | some key =>
    match collection_for_madhab key with
    | none => (false, none)
    | some collection_name =>
      if ensureFails then (false, none)
      else
        match embedResult with
        | Except.error _ => (false, none)
        | Except.ok vector =>
          let point : DocPoint :=
            { id := newId
              vector := vector
              payload :=
                { text := some text
                  topic := metadata.topic
                  category := metadata.category
                  source := metadata.source
                  references := metadata.references
                  madhab := some key
                  book_title := metadata.book_title
                  author := metadata.author
                  page := metadata.page
                  chunk_index := metadata.chunk_index } }
          if upsertFails then (false, none)
          else (true, some (collection_name, point))

/-! ## Orchestrator (src/services/orchestrator_service.py) -/

/-- `multi_madhab_indicators` of `_fallback_keyword_check`. -/
def multi_madhab_indicators : List String :=
  ["all madhabs", "all schools", "compare", "differences",
   "مقارنة", "الفرق", "جميع المذاهب", "كل المذاهب"]

/-- `specific_madhab_indicators` of `_fallback_keyword_check`. -/
def specific_madhab_indicators : List String :=
  ["maliki", "hanafi", "shafii", "hanbali",
   "مالكي", "حنفي", "شافعي", "حنبلي"]

/-- `OrchestratorService._fallback_keyword_check`: the pure keyword
heuristic used when the LLM classification fails. -/
def fallback_keyword_check (question : String) : Bool × String :=
  let question_lower := lowerStr question
  if multi_madhab_indicators.any (fun kw => containsSub kw question_lower) then
    (true, "User explicitly asked for comparison across madhabs")
  else if specific_madhab_indicators.any (fun kw => containsSub kw question_lower) then
    (false, "Question is about a specific madhab, not multi-madhab comparison")
  else
    (true, "General fiqh question - provide multi-madhab perspective")

/-- `OrchestratorService.should_use_multi_madhab`.  The whole LLM attempt
(the `try` block: `generate_content` plus JSON parsing and its internal
text-inference fallbacks, lines 242-301) is abstracted as `attempt`, which
either returns a `(needs_multi, reason)` pair or raises; any raise lands in
the `except` handler, which calls the keyword fallback.  Service
construction (lazy `GeminiService()` wiring) is modelled as non-failing. -/
def should_use_multi_madhab (attempt : Except Unit (Bool × String))
    (question : String) : Bool × String :=
  let c := is_fiqh_question question
  if c.1 = false then
    (false, "Question is about " ++ c.2 ++
      ", not fiqh. Multi-madhab only for fiqh questions.")
  else
    match attempt with
    | Except.ok r => r
    | Except.error _ => fallback_keyword_check question

/-- Assignment `d[k] = v` on a Python dict modelled as an association list
with first-insertion key order. -/
def dictInsert (d : List (String × List MergedResult)) (k : String)
    (v : List MergedResult) : List (String × List MergedResult) :=
  if d.any (fun p => p.1 == k) then
    d.map (fun p => if p.1 == k then (k, v) else p)
  else d ++ [(k, v)]

/-- `OrchestratorService.search_madhabs_separately` (lines 36-86).  The
per-madhab invocation `self.rag.search(query, n_results=n_per_madhab,
madhabs=[madhab], score_threshold=0.3)` — which may raise — is abstracted as
`rawSearch`; a raise is caught and stores `[]` for that key.  Madhab
normalization is the same `selectMadhabs` logic as in `FiqhRAG.search`. -/
def search_madhabs_separately (rawSearch : String → Except Unit (List MergedResult))
    (madhabs : Option (List String)) : List (String × List MergedResult) :=
  (selectMadhabs madhabs).foldl
    (fun d madhab =>
      dictInsert d madhab
        (match rawSearch madhab with
         | Except.ok rs => rs
         | Except.error _ => []))
    []

/-- Keys in first-occurrence order after removing duplicates (the key order
of a Python dict filled by repeated assignment). -/
def dedupSeen (seen : List String) : List String → List String
  | [] => []
  | k :: ks =>
    if seen.any (fun s => s == k) then dedupSeen seen ks
    else k :: dedupSeen (k :: seen) ks

/-- First-occurrence deduplication. -/
def dedupFirst (l : List String) : List String := dedupSeen [] l

/-! ## Derived definitions used by the statements -/

/-- Total character count of a list of blocks. -/
def sumLen (l : List String) : Nat := (l.map String.length).sum

/-- A client identical to `client` except that every raising collection
search instead returns no hits. -/
def patchOk (client : ClientSearch) : ClientSearch := fun cn v n f t =>
  match client cn v n f t with
  | Except.error _ => Except.ok []
  | Except.ok rs => Except.ok rs

/-- The `(score, madhab, id)` key of a merged output entry. -/
def mergedKey (e : MergedResult) : ℚ × String × String :=
  (e.score, e.metadata.madhab, e.id)

/-- Comparator written from the spec's words (not from the code): descending
score with ties broken by madhab key **ascending**, then result id
**ascending**. -/
def ascPairKeyLe (p q : ℚ × String × String) : Bool :=
  decide (q.1 < p.1) ||
    (decide (p.1 = q.1) &&
      (strLtB p.2.1.data q.2.1.data ||
        (decide (p.2.1 = q.2.1) && strLeB p.2.2 q.2.2)))

/-- Adjacent-pairs check that a list is ordered by `le`. -/
def chainB {α : Type} (le : α → α → Bool) : List α → Bool
  | [] => true
  | [_] => true
  | a :: b :: t => le a b && chainB le (b :: t)

/-- Ordering predicate stated by the spec for the merged result list:
score descending, ties by madhab key ascending then id ascending. -/
def specMergeOrdered (l : List MergedResult) : Bool :=
  chainB (fun a b => ascPairKeyLe (mergedKey a) (mergedKey b)) l

/-- The per-madhab `self.rag.search(query, n_results=n_per_madhab,
madhabs=[madhab], score_threshold=0.3)` call of
`search_madhabs_separately`, instantiated with the (non-raising) RAG engine
model. -/
def ragSearchCall (embed : String → List ℚ) (client : ClientSearch)
    (query : String) (nPer : Nat) : String → Except Unit (List MergedResult) :=
  fun madhab =>
    Except.ok (FiqhRAG_search embed client query nPer (some [madhab]) none (mkRat 3 10))

/-- The result stored for one madhab key: the per-madhab search outcome with
a raise degraded to `[]`. -/
def valOf (rawSearch : String → Except Unit (List MergedResult))
    (k : String) : List MergedResult :=
  match rawSearch k with
  | Except.ok rs => rs
  | Except.error _ => []

/-! ## Concrete sample inputs for witnesses and counterexamples -/

/-- A trivial embedder. -/
def embed0 : String → List ℚ := fun _ => []

/-- Maliki hit with id "b", score 1/2. -/
def hitM : Hit := { id := "b", payload := emptyPayload, score := mkRat 1 2 }

/-- Hanafi hit with id "a", score 1/2 — same score as `hitM`. -/
def hitH : Hit := { id := "a", payload := emptyPayload, score := mkRat 1 2 }

/-- A client holding one maliki hit and one hanafi hit with *equal* scores. -/
def clientTie : ClientSearch := fun cname _ _ _ _ =>
  if cname = "maliki_fiqh" then Except.ok [hitM]
  else if cname = "hanafi_fiqh" then Except.ok [hitH]
  else Except.ok []

/-- A client holding a single maliki hit. -/
def clientOne : ClientSearch := fun cname _ _ _ _ =>
  if cname = "maliki_fiqh" then Except.ok [hitM] else Except.ok []

/-- A client whose hanafi collection search raises and whose maliki
collection holds one hit. -/
def clientFail : ClientSearch := fun cname _ _ _ _ =>
  if cname = "maliki_fiqh" then Except.ok [hitM]
  else if cname = "hanafi_fiqh" then Except.error ()
  else Except.ok []

/-- A per-madhab search stub whose hanafi search raises and whose other
searches return no results. -/
def rawFail : String → Except Unit (List MergedResult) := fun k =>
  if k = "hanafi" then Except.error () else Except.ok []

/-- Sample metadata carrying a madhab alias (capitalized "Maliki"). -/
def metaM : Metadata :=
  { madhab := some "Maliki", topic := some "Wudu", category := some "taharah",
    source := some "Test", references := none, book_title := none,
    author := none, page := none, chunk_index := none }

/-- Sample metadata with no madhab key. -/
def metaNone : Metadata :=
  { madhab := none, topic := some "Wudu", category := none, source := none,
    references := none, book_title := none, author := none, page := none,
    chunk_index := none }

/-- The point `add_document` builds from `metaM` with id "id1", text "doc"
and the empty embedding. -/
def samplePoint : DocPoint :=
  { id := "id1", vector := [],
    payload :=
      { text := some "doc", topic := some "Wudu", category := some "taharah",
        source := some "Test", references := none, madhab := some "maliki",
        book_title := none, author := none, page := none,
        chunk_index := none } }

/-! ## Order lemmas for the merge comparator -/

theorem strLtB_trans : ∀ a b c : List Char,
    strLtB a b = true → strLtB b c = true → strLtB a c = true := by
  intro a
  induction a with
  | nil =>
    intro b c h1 h2
    cases b with
    | nil => simp [strLtB] at h1
    | cons y ys =>
      cases c with
      | nil => simp [strLtB] at h2
      | cons z zs => simp [strLtB]
  | cons x xs ih =>
    intro b c h1 h2
    cases b with
    | nil => simp [strLtB] at h1
    | cons y ys =>
      cases c with
      | nil => simp [strLtB] at h2
      | cons z zs =>
        simp only [strLtB] at h1 h2 ⊢
        by_cases hxy : x = y
        · subst hxy
          simp only [if_pos rfl] at h1
          by_cases hyz : x = z
          · subst hyz
            simp only [if_pos rfl] at h2 ⊢
            exact ih ys zs h1 h2
          · simp only [if_neg hyz] at h2 ⊢
            exact h2
        · simp only [if_neg hxy, decide_eq_true_eq] at h1
          by_cases hyz : y = z
          · have hxz : x ≠ z := fun e => hxy (e.trans hyz.symm)
            simp only [if_neg hxz, decide_eq_true_eq]
            exact hyz ▸ h1
          · simp only [if_neg hyz, decide_eq_true_eq] at h2
            have hlt : x < z := lt_trans h1 h2
            have hxz : x ≠ z := ne_of_lt hlt
            simp only [if_neg hxz, decide_eq_true_eq]
            exact hlt

theorem strLtB_trichotomy : ∀ a b : List Char,
    strLtB a b = true ∨ a = b ∨ strLtB b a = true := by
  intro a
  induction a with
  | nil =>
    intro b
    cases b with
    | nil => exact Or.inr (Or.inl rfl)
    | cons y ys => exact Or.inl (by simp [strLtB])
  | cons x xs ih =>
    intro b
    cases b with
    | nil => exact Or.inr (Or.inr (by simp [strLtB]))
    | cons y ys =>
      by_cases hxy : x = y
      · subst hxy
        rcases ih ys with h | h | h
        · exact Or.inl (by simp [strLtB, h])
        · exact Or.inr (Or.inl (by rw [h]))
        · exact Or.inr (Or.inr (by simp [strLtB, h]))
      · rcases lt_or_gt_of_ne hxy with h | h
        · exact Or.inl (by simp [strLtB, if_neg hxy, h])
        · have hyx : y ≠ x := fun e => hxy e.symm
          exact Or.inr (Or.inr (by simp [strLtB, if_neg hyx, h]))

theorem strLtB_irrefl : ∀ a : List Char, strLtB a a = false := by
  intro a
  induction a with
  | nil => simp [strLtB]
  | cons x xs ih => simp [strLtB, ih]

theorem strLeB_trans {a b c : String} (h1 : strLeB a b = true)
    (h2 : strLeB b c = true) : strLeB a c = true := by
  simp only [strLeB, Bool.or_eq_true, beq_iff_eq] at h1 h2 ⊢
  rcases h1 with h1 | h1
  · subst h1; exact h2
  · rcases h2 with h2 | h2
    · subst h2; exact Or.inr h1
    · exact Or.inr (strLtB_trans _ _ _ h1 h2)

theorem strEq_of_dataEq {a b : String} (h : a.data = b.data) : a = b := by
  cases a; cases b; exact congrArg String.mk h

theorem strLeB_total (a b : String) : strLeB a b = true ∨ strLeB b a = true := by
  simp only [strLeB, Bool.or_eq_true, beq_iff_eq]
  rcases strLtB_trichotomy a.data b.data with h | h | h
  · exact Or.inl (Or.inr h)
  · exact Or.inl (Or.inl (strEq_of_dataEq h))
  · exact Or.inr (Or.inr h)

theorem pairKeyLe_iff (p q : ℚ × String × String) :
    pairKeyLe p q = true ↔
      p.1 < q.1 ∨
        (p.1 = q.1 ∧
          (strLtB p.2.1.data q.2.1.data = true ∨
            (p.2.1 = q.2.1 ∧ strLeB p.2.2 q.2.2 = true))) := by
  simp [pairKeyLe, Bool.or_eq_true, Bool.and_eq_true, decide_eq_true_eq]

theorem pairKeyLe_trans {p q r : ℚ × String × String}
    (h1 : pairKeyLe p q = true) (h2 : pairKeyLe q r = true) :
    pairKeyLe p r = true := by
  rw [pairKeyLe_iff] at h1 h2 ⊢
  rcases h1 with h1 | ⟨e1, h1⟩
  · rcases h2 with h2 | ⟨e2, _⟩
    · exact Or.inl (lt_trans h1 h2)
    · exact Or.inl (e2 ▸ h1)
  · rcases h2 with h2 | ⟨e2, h2⟩
    · exact Or.inl (e1 ▸ h2)
    · refine Or.inr ⟨e1.trans e2, ?_⟩
      rcases h1 with h1 | ⟨f1, h1⟩
      · rcases h2 with h2 | ⟨f2, _⟩
        · exact Or.inl (strLtB_trans _ _ _ h1 h2)
        · exact Or.inl (f2 ▸ h1)
      · rcases h2 with h2 | ⟨f2, h2⟩
        · exact Or.inl (f1 ▸ h2)
        · exact Or.inr ⟨f1.trans f2, strLeB_trans h1 h2⟩

theorem pairKeyLe_total (p q : ℚ × String × String) :
    pairKeyLe p q = true ∨ pairKeyLe q p = true := by
  rw [pairKeyLe_iff, pairKeyLe_iff]
  rcases lt_trichotomy p.1 q.1 with h | h | h
  · exact Or.inl (Or.inl h)
  · rcases strLtB_trichotomy p.2.1.data q.2.1.data with hs | hs | hs
    · exact Or.inl (Or.inr ⟨h, Or.inl hs⟩)
    · have e : p.2.1 = q.2.1 := strEq_of_dataEq hs
      rcases strLeB_total p.2.2 q.2.2 with hl | hl
      · exact Or.inl (Or.inr ⟨h, Or.inr ⟨e, hl⟩⟩)
      · exact Or.inr (Or.inr ⟨h.symm, Or.inr ⟨e.symm, hl⟩⟩)
    · exact Or.inr (Or.inr ⟨h.symm, Or.inl hs⟩)
  · exact Or.inr (Or.inl h)

instance : IsTrans (String × Hit) descBefore :=
  ⟨fun _ _ _ h1 h2 => pairKeyLe_trans h2 h1⟩

instance : IsTotal (String × Hit) descBefore :=
  ⟨fun a b => (pairKeyLe_total (sortKey b) (sortKey a)).imp id id⟩

/-! ## Helper lemmas: context accumulation -/

theorem takeParts_eq_take (L : Nat) :
    ∀ (bs : List String) (t : Nat), ∃ k, takeParts L t bs = bs.take k := by
  intro bs
  induction bs with
  | nil => intro t; exact ⟨0, rfl⟩
  | cons b rest ih =>
    intro t
    by_cases h : t + b.length > L
    · exact ⟨0, by simp [takeParts, h]⟩
    · obtain ⟨k, hk⟩ := ih (t + b.length)
      exact ⟨k + 1, by simp [takeParts, h, hk]⟩

theorem takeParts_sum_le (L : Nat) :
    ∀ (bs : List String) (t : Nat), t + sumLen (takeParts L t bs) ≤ L ∨
      takeParts L t bs = [] := by
  intro bs
  induction bs with
  | nil => intro t; exact Or.inr rfl
  | cons b rest ih =>
    intro t
    by_cases h : t + b.length > L
    · exact Or.inr (by simp [takeParts, h])
    · left
      rcases ih (t + b.length) with h2 | h2
      · simp only [takeParts, if_neg h, sumLen, List.map_cons, List.sum_cons] at h2 ⊢
        omega
      · simp only [takeParts, if_neg h, h2, sumLen, List.map_cons, List.sum_cons,
          List.map_nil, List.sum_nil]
        omega

theorem takeParts_length_le (L : Nat) (bs : List String) (t : Nat) :
    (takeParts L t bs).length ≤ bs.length := by
  obtain ⟨k, hk⟩ := takeParts_eq_take L bs t
  rw [hk]
  simp

theorem joinSep_newline_length :
    ∀ parts : List String, parts ≠ [] →
      (joinSep "\n" parts).length + 1 = sumLen parts + parts.length := by
  intro parts
  induction parts with
  | nil => intro h; exact absurd rfl h
  | cons a rest ih =>
    intro _
    cases rest with
    | nil => simp [joinSep, sumLen]
    | cons b t =>
      have ihr := ih (by simp)
      simp only [joinSep, String.length_append, sumLen, List.map_cons,
        List.sum_cons, List.length_cons] at ihr ⊢
      have hnl : ("\n" : String).length = 1 := rfl
      omega

theorem formatBlocks_length : ∀ (i : Nat) (rs : List MergedResult),
    (formatBlocks i rs).length = rs.length := by
  intro i rs
  induction rs generalizing i with
  | nil => rfl
  | cons r rest ih => simp [formatBlocks, ih]

theorem formatBlock_length_ge (i : Nat) (r : MergedResult) :
    4 ≤ (formatBlock i r).length := by
  simp only [formatBlock, String.length_append]
  have h : ("---\n" : String).length = 4 := rfl
  omega

theorem sumLen_take_le_sumLen (k : Nat) (l : List String) :
    sumLen (l.take k) ≤ sumLen l := by
  induction l generalizing k with
  | nil => simp [sumLen]
  | cons a rest ih =>
    cases k with
    | zero => simp [sumLen]
    | succ n =>
      simp only [List.take_succ_cons, sumLen, List.map_cons, List.sum_cons]
      exact Nat.add_le_add_left (ih n) _

/-! ## Helper lemmas: search output shape -/

theorem FiqhRAG_search_length_le (embed : String → List ℚ) (client : ClientSearch)
    (query : String) (n : Nat) (madhabs : Option (List String))
    (cf : Option String) (thr : ℚ) :
    (FiqhRAG_search embed client query n madhabs cf thr).length ≤ n := by
  unfold FiqhRAG_search
  by_cases hq : stripStr query = ""
  · simp [hq]
  · simp only [if_neg hq]
    cases collectPairs client (embed query) n cf thr (selectMadhabs madhabs) with
    | error e => simp
    | ok pairs =>
      simp only [List.length_map]
      simp

/-! ## Helper lemmas: madhab selection -/

theorem filterMap_id_map {α β : Type} (f : α → Option β) (l : List α) :
    (l.map f).filterMap id = l.filterMap f := by
  induction l with
  | nil => rfl
  | cons a rest ih =>
    cases h : f a <;> simp [List.filterMap_cons, h, ih]

theorem filterMap_filter_isSome {α β : Type} (f : α → Option β) (l : List α) :
    (l.filter (fun a => (f a).isSome)).filterMap f = l.filterMap f := by
  induction l with
  | nil => rfl
  | cons a rest ih =>
    cases h : f a with
    | none => simp [List.filter_cons, List.filterMap_cons, h, ih]
    | some b => simp [List.filter_cons, List.filterMap_cons, h, ih]

theorem normalize_madhab_name_mem {s k : String}
    (h : normalize_madhab_name s = some k) : k ∈ MADHAB_KEYS := by
  simp only [normalize_madhab_name] at h
  split_ifs at h <;> simp_all [MADHAB_KEYS]

theorem normalize_canonical {k : String} (hk : k ∈ MADHAB_KEYS) :
    normalize_madhab_name k = some k := by
  simp only [MADHAB_KEYS, List.mem_cons, List.not_mem_nil, or_false] at hk
  rcases hk with rfl | rfl | rfl | rfl <;> decide

theorem selectMadhabs_mem {k : String} {m : Option (List String)}
    (h : k ∈ selectMadhabs m) : k ∈ MADHAB_KEYS := by
  simp only [selectMadhabs] at h
  rw [filterMap_id_map] at h
  split at h
  · exact h
  · obtain ⟨a, _, ha⟩ := List.mem_filterMap.mp h
    exact normalize_madhab_name_mem ha

theorem selectMadhabs_single {k : String} (hk : k ∈ MADHAB_KEYS) :
    selectMadhabs (some [k]) = [k] := by
  unfold selectMadhabs
  simp [List.filterMap_cons, normalize_canonical hk]

theorem selectMadhabs_none_eq : selectMadhabs none = MADHAB_KEYS := by decide

theorem selectMadhabs_all_unrecognized {l : List String}
    (h : ∀ m ∈ l, normalize_madhab_name m = none) :
    selectMadhabs (some l) = MADHAB_KEYS := by
  cases l with
  | nil => decide
  | cons a rest =>
    have hfm : (a :: rest).filterMap normalize_madhab_name = [] :=
      List.filterMap_eq_nil_iff.mpr h
    simp only [selectMadhabs]
    rw [filterMap_id_map]
    simp only [List.isEmpty_cons, Bool.false_eq_true, if_false, hfm,
      List.isEmpty_nil, if_true]

theorem selectMadhabs_filter_isSome (l : List String) :
    selectMadhabs (some (l.filter (fun m => (normalize_madhab_name m).isSome))) =
      selectMadhabs (some l) := by
  by_cases he : l.filterMap normalize_madhab_name = []
  · have hfall : ∀ m ∈ l, normalize_madhab_name m = none :=
      List.filterMap_eq_nil_iff.mp he
    have hfe : l.filter (fun m => (normalize_madhab_name m).isSome) = [] := by
      rw [List.filter_eq_nil_iff]
      intro a ha
      simp [hfall a ha]
    rw [hfe]
    rw [selectMadhabs_all_unrecognized hfall]
    decide
  · have hlne : l ≠ [] := by
      intro h; subst h; exact he rfl
    have hfne : l.filter (fun m => (normalize_madhab_name m).isSome) ≠ [] := by
      intro h
      exact he (by rw [← filterMap_filter_isSome normalize_madhab_name l, h]; rfl)
    unfold selectMadhabs
    simp only [List.isEmpty_iff, if_neg hlne, if_neg hfne]
    rw [filterMap_id_map, filterMap_id_map, filterMap_filter_isSome]

/-! ## Helper lemmas: fan-out -/

theorem collectPairs_patchOk (client : ClientSearch) (v : List ℚ) (n : Nat)
    (cf : Option String) (thr : ℚ) :
    ∀ keys : List String,
      collectPairs (patchOk client) v n cf thr keys =
        collectPairs client v n cf thr keys := by
  intro keys
  induction keys with
  | nil => rfl
  | cons k rest ih =>
    unfold collectPairs
    cases collection_for_madhab k with
    | none => rfl
    | some cname =>
      rw [ih]
      cases h : client cname v n cf thr with
      | error e => simp [patchOk, h]
      | ok rs => simp [patchOk, h]

theorem collectPairs_mem_of_ok (client : ClientSearch) (v : List ℚ) (n : Nat)
    (cf : Option String) (thr : ℚ) :
    ∀ (keys : List String) (pool : List (String × Hit)) (k : String)
      (rs : List Hit) (r : Hit),
      collectPairs client v n cf thr keys = Except.ok pool →
      k ∈ keys →
      client ((collection_for_madhab k).getD "") v n cf thr = Except.ok rs →
      r ∈ rs → (k, r) ∈ pool := by
  intro keys
  induction keys with
  | nil => intro pool k rs r _ hk; exact absurd hk (List.not_mem_nil k)
  | cons k0 rest ih =>
    intro pool k rs r hok hk hcl hr
    unfold collectPairs at hok
    cases hc : collection_for_madhab k0 with
    | none => rw [hc] at hok; exact absurd hok (by simp)
    | some cname =>
      rw [hc] at hok
      cases htail : collectPairs client v n cf thr rest with
      | error e => rw [htail] at hok; exact absurd hok (by simp)
      | ok tail =>
        rw [htail] at hok
        simp only [Except.ok.injEq] at hok
        subst hok
        rcases List.mem_cons.mp hk with rfl | hmem
        · rw [hc] at hcl
          simp only [Option.getD_some] at hcl
          rw [hcl]
          exact List.mem_append_left _ (List.mem_map_of_mem _ hr)
        · exact List.mem_append_right _ (ih tail k rs r htail hmem hcl hr)

theorem collection_for_madhab_canonical {k : String} (hk : k ∈ MADHAB_KEYS) :
    collection_for_madhab k = some (k ++ "_fiqh") := by
  simp only [MADHAB_KEYS, List.mem_cons, List.not_mem_nil, or_false] at hk
  rcases hk with rfl | rfl | rfl | rfl <;> decide

/-! ## Claim theorems -/

/-- C4: `is_fiqh_question` checks its bilingual keyword lists in fixed
priority order — an English fiqh keyword match or an Arabic fiqh keyword
match yields `(true, "fiqh")`; failing both, a Quran keyword match yields
`(false, "quran")`; failing that, a Hadith keyword match yields
`(false, "hadith")`; otherwise `(false, "general")` — and it maps the three
spec examples as stated.  Determinism on identical input is immediate since
the model is a pure function. -/
theorem C4_classifier_priority_and_examples :
    (∀ q : String,
        fiqh_keywords_en.any (fun kw => containsSub kw (lowerStr q)) = true →
        is_fiqh_question q = (true, "fiqh")) ∧
    (∀ q : String,
        fiqh_keywords_ar.any (fun kw => containsSub kw q) = true →
        is_fiqh_question q = (true, "fiqh")) ∧
    (∀ q : String,
        fiqh_keywords_en.any (fun kw => containsSub kw (lowerStr q)) = false →
        fiqh_keywords_ar.any (fun kw => containsSub kw q) = false →
        quran_keywords.any (fun kw => containsSub kw (lowerStr q)) = true →
        is_fiqh_question q = (false, "quran")) ∧
    (∀ q : String,
        fiqh_keywords_en.any (fun kw => containsSub kw (lowerStr q)) = false →
        fiqh_keywords_ar.any (fun kw => containsSub kw q) = false →
        quran_keywords.any (fun kw => containsSub kw (lowerStr q)) = false →
        hadith_keywords.any (fun kw => containsSub kw (lowerStr q)) = true →
        is_fiqh_question q = (false, "hadith")) ∧
    (∀ q : String,
        fiqh_keywords_en.any (fun kw => containsSub kw (lowerStr q)) = false →
        fiqh_keywords_ar.any (fun kw => containsSub kw q) = false →
        quran_keywords.any (fun kw => containsSub kw (lowerStr q)) = false →
        hadith_keywords.any (fun kw => containsSub kw (lowerStr q)) = false →
        is_fiqh_question q = (false, "general")) ∧
    is_fiqh_question "What is the ruling on wudu?" = (true, "fiqh") ∧
    is_fiqh_question "ما حكم الوضوء؟" = (true, "fiqh") ∧
    is_fiqh_question "Show me Surah Al-Fatiha" = (false, "quran") := by
  refine ⟨?_, ?_, ?_, ?_, ?_, by decide, by decide, by decide⟩
  · intro q h; simp [is_fiqh_question, h]
  · intro q h
    by_cases hen : fiqh_keywords_en.any (fun kw => containsSub kw (lowerStr q)) = true
    · simp [is_fiqh_question, hen]
    · simp [is_fiqh_question, h, hen]
  · intro q h1 h2 h3; simp [is_fiqh_question, h1, h2, h3]
  · intro q h1 h2 h3 h4; simp [is_fiqh_question, h1, h2, h3, h4]
  · intro q h1 h2 h3 h4; simp [is_fiqh_question, h1, h2, h3, h4]

/-- Witness for C4: the Hadith branch fires on a concrete question whose
keywords dodge the higher-priority lists. -/
theorem C4_witness : is_fiqh_question "Tell me a hadith please" = (false, "hadith") :=
  C4_classifier_priority_and_examples.2.2.2.1 "Tell me a hadith please"
    (by decide) (by decide) (by decide) (by decide)

/-- C3: `should_use_multi_madhab` returns `(false, reason)` as soon as
`is_fiqh_question` classifies the question as non-fiqh; when the LLM
classification attempt raises it returns the pure keyword fallback (so the
result is always a defined boolean pair); the fallback maps an explicit
comparison phrase to `true`, otherwise a named single school to `false`,
otherwise defaults to `true`; and the spec's zakat-nisab probe lands on the
default-true branch. -/
theorem C3_non_fiqh_gate_and_llm_fallback :
    (∀ (attempt : Except Unit (Bool × String)) (q : String),
        (is_fiqh_question q).1 = false →
        should_use_multi_madhab attempt q =
          (false, "Question is about " ++ (is_fiqh_question q).2 ++
            ", not fiqh. Multi-madhab only for fiqh questions.")) ∧
    (∀ q : String, (is_fiqh_question q).1 = true →
        should_use_multi_madhab (Except.error ()) q = fallback_keyword_check q) ∧
    (∀ q : String,
        multi_madhab_indicators.any (fun kw => containsSub kw (lowerStr q)) = true →
        fallback_keyword_check q =
          (true, "User explicitly asked for comparison across madhabs")) ∧
    (∀ q : String,
        multi_madhab_indicators.any (fun kw => containsSub kw (lowerStr q)) = false →
        specific_madhab_indicators.any (fun kw => containsSub kw (lowerStr q)) = true →
        fallback_keyword_check q =
          (false, "Question is about a specific madhab, not multi-madhab comparison")) ∧
    (∀ q : String,
        multi_madhab_indicators.any (fun kw => containsSub kw (lowerStr q)) = false →
        specific_madhab_indicators.any (fun kw => containsSub kw (lowerStr q)) = false →
        fallback_keyword_check q =
          (true, "General fiqh question - provide multi-madhab perspective")) ∧
    should_use_multi_madhab (Except.error ()) "What is zakat nisab?" =
      (true, "General fiqh question - provide multi-madhab perspective") := by
  refine ⟨?_, ?_, ?_, ?_, ?_, by decide⟩
  · intro attempt q h; simp [should_use_multi_madhab, h]
  · intro q h; simp [should_use_multi_madhab, h]
  · intro q h; simp [fallback_keyword_check, h]
  · intro q h1 h2; simp [fallback_keyword_check, h1, h2]
  · intro q h1 h2; simp [fallback_keyword_check, h1, h2]

/-- Witness for C3: a non-fiqh question is rejected immediately even though
the LLM attempt would raise. -/
theorem C3_witness :
    should_use_multi_madhab (Except.error ()) "Show me Surah Al-Fatiha" =
      (false, "Question is about quran, not fiqh. Multi-madhab only for fiqh questions.") := by
  have h := C3_non_fiqh_gate_and_llm_fallback.1 (Except.error ())
    "Show me Surah Al-Fatiha" (by decide)
  exact h.trans (by decide)

/-- C5: whenever `add_document` succeeds, the stored payload's `madhab` is
the canonical key obtained by normalizing the raw metadata value — never the
raw alias itself — and the point is upserted into that canonical madhab's
collection. -/
theorem C5_stored_payload_canonical
    (e : Except Unit (List ℚ)) (ef uf : Bool) (newId text : String)
    (md : Metadata) (cname : String) (pt : DocPoint)
    (h : add_document e ef uf newId text md = (true, some (cname, pt))) :
    ∃ raw key, md.madhab = some raw ∧ normalize_madhab_name raw = some key ∧
      pt.payload.madhab = some key ∧ key ∈ MADHAB_KEYS ∧
      cname = key ++ "_fiqh" := by
  cases hmd : md.madhab with
  | none => simp [add_document, hmd] at h
  | some raw =>
    by_cases hraw : raw = ""
    · simp [add_document, hmd, hraw] at h
    · cases hnorm : normalize_madhab_name raw with
      | none => simp [add_document, hmd, hraw, hnorm] at h
      | some key =>
        have hkmem := normalize_madhab_name_mem hnorm
        have hcol := collection_for_madhab_canonical hkmem
        cases ef with
        | true => simp [add_document, hmd, hraw, hnorm, hcol] at h
        | false =>
          cases e with
          | error u => simp [add_document, hmd, hraw, hnorm, hcol] at h
          | ok v =>
            cases uf with
            | true => simp [add_document, hmd, hraw, hnorm, hcol] at h
            | false =>
              simp only [add_document, hmd, if_neg hraw, hnorm, hcol,
                Bool.false_eq_true, if_false, Prod.mk.injEq,
                Option.some.injEq] at h
              obtain ⟨-, hcn, hpt⟩ := h
              refine ⟨raw, key, rfl, hnorm, ?_, hkmem, hcn.symm⟩
              rw [← hpt]

/-- Witness for C5 at a concrete ingestion of a "Maliki"-aliased document. -/
theorem C5_witness :
    ∃ raw key, metaM.madhab = some raw ∧ normalize_madhab_name raw = some key ∧
      samplePoint.payload.madhab = some key ∧ key ∈ MADHAB_KEYS ∧
      "maliki_fiqh" = key ++ "_fiqh" :=
  C5_stored_payload_canonical (Except.ok []) false false "id1" "doc" metaM
    "maliki_fiqh" samplePoint (by decide)

/-- C6: `add_document` returns `false` (and performs no upsert) whenever the
madhab metadata is absent or fails to normalize, returns `false` on any
embedding, collection-creation or upsert failure, and returns `true` exactly
when a valid madhab was normalized, the embedding succeeded and the upsert
succeeded.  The function is total (the Python handler catches every raise
and returns the boolean). -/
theorem C6_add_document_error_contract
    (e : Except Unit (List ℚ)) (ef uf : Bool) (newId text : String)
    (md : Metadata) :
    ((md.madhab = none ∨
        ∃ raw, md.madhab = some raw ∧ normalize_madhab_name raw = none) →
      add_document e ef uf newId text md = (false, none)) ∧
    ((e = Except.error () ∨ ef = true ∨ uf = true) →
      (add_document e ef uf newId text md).1 = false) ∧
    ((add_document e ef uf newId text md).1 = true ↔
      ((∃ raw key, md.madhab = some raw ∧ normalize_madhab_name raw = some key) ∧
        (∃ v, e = Except.ok v) ∧ ef = false ∧ uf = false)) := by
  cases hmd : md.madhab with
  | none =>
    refine ⟨fun _ => by simp [add_document, hmd], ?_, ?_⟩
    · intro _; simp [add_document, hmd]
    · simp [add_document, hmd]
  | some raw =>
    by_cases hraw : raw = ""
    · subst hraw
      have hn : normalize_madhab_name "" = none := by decide
      refine ⟨fun _ => by simp [add_document, hmd], ?_, ?_⟩
      · intro _; simp [add_document, hmd]
      · simp [add_document, hmd, hn]
    · cases hnorm : normalize_madhab_name raw with
      | none =>
        refine ⟨fun _ => by simp [add_document, hmd, hraw, hnorm], ?_, ?_⟩
        · intro _; simp [add_document, hmd, hraw, hnorm]
        · simp [add_document, hmd, hraw, hnorm]
      | some key =>
        have hkmem := normalize_madhab_name_mem hnorm
        have hcol := collection_for_madhab_canonical hkmem
        refine ⟨?_, ?_, ?_⟩
        · intro hbad
          rcases hbad with hbad | ⟨raw2, hraw2, hnone⟩
          · exact absurd hbad (by simp)
          · injection hraw2 with hr
            rw [← hr, hnorm] at hnone
            exact absurd hnone (by simp)
        · intro hfail
          rcases hfail with rfl | rfl | rfl
          · cases ef <;>
              simp [add_document, hmd, hraw, hnorm, hcol]
          · simp [add_document, hmd, hraw, hnorm, hcol]
          · cases ef with
            | true => simp [add_document, hmd, hraw, hnorm, hcol]
            | false =>
              cases e with
              | error u => simp [add_document, hmd, hraw, hnorm, hcol]
              | ok v => simp [add_document, hmd, hraw, hnorm, hcol]
        · cases ef with
          | true =>
            simp [add_document, hmd, hraw, hnorm, hcol]
          | false =>
            cases e with
            | error u =>
              simp [add_document, hmd, hraw, hnorm, hcol]
            | ok v =>
              cases uf with
              | true => simp [add_document, hmd, hraw, hnorm, hcol]
              | false =>
                constructor
                · intro _
                  exact ⟨⟨raw, key, rfl, hnorm⟩, ⟨v, rfl⟩, rfl, rfl⟩
                · intro _
                  simp [add_document, hmd, hraw, hnorm, hcol]

/-- Witness for C6: missing madhab metadata yields `false` with no upsert,
and the fully successful path yields `true`. -/
theorem C6_witness :
    add_document (Except.ok []) false false "id1" "doc" metaNone =
      (false, none) ∧
    (add_document (Except.ok []) false false "id1" "doc" metaM).1 = true := by
  constructor
  · exact (C6_add_document_error_contract (Except.ok []) false false "id1"
      "doc" metaNone).1 (Or.inl (by decide))
  · exact (C6_add_document_error_contract (Except.ok []) false false "id1"
      "doc" metaM).2.2.mpr
      ⟨⟨"Maliki", "maliki", by decide, by decide⟩, ⟨[], rfl⟩, rfl, rfl⟩

theorem FiqhRAG_search_congr (embed : String → List ℚ) (client : ClientSearch)
    (query : String) (n : Nat) (cf : Option String) (thr : ℚ)
    {m1 m2 : Option (List String)} (h : selectMadhabs m1 = selectMadhabs m2) :
    FiqhRAG_search embed client query n m1 cf thr =
      FiqhRAG_search embed client query n m2 cf thr := by
  unfold FiqhRAG_search
  rw [h]

/-- C7: in `FiqhRAG.search`, an omitted `madhabs` argument behaves exactly
like passing all four canonical keys; entries that do not normalize are
silently dropped (filtering them away beforehand changes nothing); and a
list whose entries are all unrecognized falls back to searching all four
collections. -/
theorem C7_search_madhab_defaults (embed : String → List ℚ)
    (client : ClientSearch) (query : String) (n : Nat) (cf : Option String)
    (thr : ℚ) :
    FiqhRAG_search embed client query n none cf thr =
      FiqhRAG_search embed client query n (some MADHAB_KEYS) cf thr ∧
    (∀ l : List String, (∀ m ∈ l, normalize_madhab_name m = none) →
      FiqhRAG_search embed client query n (some l) cf thr =
        FiqhRAG_search embed client query n none cf thr) ∧
    (∀ l : List String,
      FiqhRAG_search embed client query n (some l) cf thr =
        FiqhRAG_search embed client query n
          (some (l.filter (fun m => (normalize_madhab_name m).isSome))) cf thr) := by
  refine ⟨?_, ?_, ?_⟩
  · exact FiqhRAG_search_congr embed client query n cf thr (by decide)
  · intro l hl
    exact FiqhRAG_search_congr embed client query n cf thr
      ((selectMadhabs_all_unrecognized hl).trans selectMadhabs_none_eq.symm)
  · intro l
    exact FiqhRAG_search_congr embed client query n cf thr
      (selectMadhabs_filter_isSome l).symm

/-- Witness for C7: a wholly unrecognized madhab list searches the same
collections as the default. -/
theorem C7_witness :
    FiqhRAG_search embed0 clientOne "q" 3 (some ["xyz"]) none (mkRat 1 2) =
      FiqhRAG_search embed0 clientOne "q" 3 none none (mkRat 1 2) :=
  (C7_search_madhab_defaults embed0 clientOne "q" 3 none (mkRat 1 2)).2.1
    ["xyz"] (by decide)

/-- C8: a collection search that raises neither aborts the query nor poisons
the merge — the whole search behaves exactly as if that collection had
returned no hits — and every hit of every non-raising selected collection
reaches the merged candidate pool. -/
theorem C8_failing_collection_tolerance (embed : String → List ℚ)
    (client : ClientSearch) (query : String) (n : Nat)
    (madhabs : Option (List String)) (cf : Option String) (thr : ℚ) :
    FiqhRAG_search embed (patchOk client) query n madhabs cf thr =
      FiqhRAG_search embed client query n madhabs cf thr ∧
    (∀ (pool : List (String × Hit)) (k : String) (rs : List Hit) (r : Hit),
      collectPairs client (embed query) n cf thr (selectMadhabs madhabs) =
        Except.ok pool →
      k ∈ selectMadhabs madhabs →
      client (k ++ "_fiqh") (embed query) n cf thr = Except.ok rs →
      r ∈ rs → (k, r) ∈ pool) := by
  constructor
  · simp only [FiqhRAG_search]
    rw [collectPairs_patchOk]
  · intro pool k rs r hok hk hcl hr
    have hcan := selectMadhabs_mem hk
    have hcol := collection_for_madhab_canonical hcan
    refine collectPairs_mem_of_ok client (embed query) n cf thr
      (selectMadhabs madhabs) pool k rs r hok hk ?_ hr
    rw [hcol]
    exact hcl

/-- Witness for C8: with a client whose hanafi collection raises, the search
result is unchanged from the all-successful variant, and the maliki hit
still reaches the candidate pool. -/
theorem C8_witness :
    FiqhRAG_search embed0 (patchOk clientFail) "q" 3 none none (mkRat 1 2) =
      FiqhRAG_search embed0 clientFail "q" 3 none none (mkRat 1 2) ∧
    ("maliki", hitM) ∈ [("maliki", hitM)] :=
  ⟨(C8_failing_collection_tolerance embed0 clientFail "q" 3 none none (mkRat 1 2)).1,
   (C8_failing_collection_tolerance embed0 clientFail "q" 3 none none (mkRat 1 2)).2
     [("maliki", hitM)] "maliki" [hitM] hitM (by decide) (by decide)
     (by decide) (by decide)⟩

/-- C1 counterexample: the claim's tie-break is madhab key **ascending**
(then id ascending), but on two tied-score hits — maliki id "b" and hanafi
id "a" — the code returns the maliki entry first: `reverse=True` reverses
the whole `(score, madhab, id)` key, so ties break descending.  The merged
list therefore violates the spec's ascending tie-break predicate. -/
theorem C1_counterexample_ascending_tiebreak :
    FiqhRAG_search embed0 clientTie "q" 3 none none (mkRat 1 2) =
      [mkMerged ("maliki", hitM), mkMerged ("hanafi", hitH)] ∧
    specMergeOrdered (FiqhRAG_search embed0 clientTie "q" 3 none none (mkRat 1 2)) =
      false := by
  constructor
  · decide
  · decide

/-- C1 (amended): the `(madhab, result)` pairs collected from all target
collections are globally re-ranked by descending score with ties broken
deterministically by madhab key **descending** and then result id
**descending** (stable on fully equal keys), and the merged list is
truncated to the **top** `n_results` overall (not per collection): the pool
splits, up to permutation, into the `chosen` pairs that the output is built
from and the `rest` that is cut off, with `min n_results |pool|` entries
chosen, the output sorted in descending key order, and every discarded pair
ranking no higher than every chosen one.  Determinism on identical inputs
is immediate since the model is a pure function of its inputs. -/
theorem C1_amended_merge_rerank (embed : String → List ℚ)
    (client : ClientSearch) (query : String) (n : Nat)
    (madhabs : Option (List String)) (cf : Option String) (thr : ℚ)
    (pool : List (String × Hit))
    (hpool : collectPairs client (embed query) n cf thr (selectMadhabs madhabs) =
      Except.ok pool)
    (hq : stripStr query ≠ "") :
    (FiqhRAG_search embed client query n madhabs cf thr).length =
      min n pool.length ∧
    List.Pairwise (fun a b => pairKeyLe (mergedKey b) (mergedKey a) = true)
      (FiqhRAG_search embed client query n madhabs cf thr) ∧
    (∀ e ∈ FiqhRAG_search embed client query n madhabs cf thr,
      ∃ p ∈ pool, e = mkMerged p) ∧
    (∃ chosen rest : List (String × Hit),
      pool.Perm (chosen ++ rest) ∧
      FiqhRAG_search embed client query n madhabs cf thr =
        chosen.map mkMerged ∧
      (∀ p ∈ rest, ∀ q ∈ chosen,
        pairKeyLe (sortKey p) (sortKey q) = true)) := by
  have hs : FiqhRAG_search embed client query n madhabs cf thr =
      ((List.insertionSort descBefore pool).take n).map mkMerged := by
    simp only [FiqhRAG_search]
    rw [if_neg hq, hpool]
  have hsorted : List.Pairwise descBefore (List.insertionSort descBefore pool) :=
    List.sorted_insertionSort descBefore pool
  refine ⟨?_, ?_, ?_, ?_⟩
  · rw [hs]
    simp [List.length_take, (List.perm_insertionSort descBefore pool).length_eq]
  · rw [hs]
    have htake : List.Pairwise descBefore
        ((List.insertionSort descBefore pool).take n) :=
      hsorted.sublist (List.take_sublist n _)
    rw [List.pairwise_map]
    exact htake
  · intro e he
    rw [hs] at he
    obtain ⟨p, hp, rfl⟩ := List.mem_map.mp he
    have hmem : p ∈ List.insertionSort descBefore pool := List.take_subset n _ hp
    exact ⟨p, (List.perm_insertionSort descBefore pool).mem_iff.mp hmem, rfl⟩
  · refine ⟨(List.insertionSort descBefore pool).take n,
      (List.insertionSort descBefore pool).drop n, ?_, hs, ?_⟩
    · rw [List.take_append_drop]
      exact (List.perm_insertionSort descBefore pool).symm
    · have hsplit : List.Pairwise descBefore
          ((List.insertionSort descBefore pool).take n ++
            (List.insertionSort descBefore pool).drop n) := by
        rw [List.take_append_drop]
        exact hsorted
      obtain ⟨-, -, hcross⟩ := List.pairwise_append.mp hsplit
      intro p hp q hq
      exact hcross q hq p hp

/-- Witness for C1 at the two-hit tie scenario. -/
theorem C1_witness :
    (FiqhRAG_search embed0 clientTie "q" 3 none none (mkRat 1 2)).length =
      min 3 [("maliki", hitM), ("hanafi", hitH)].length ∧
    List.Pairwise (fun a b => pairKeyLe (mergedKey b) (mergedKey a) = true)
      (FiqhRAG_search embed0 clientTie "q" 3 none none (mkRat 1 2)) ∧
    (∀ e ∈ FiqhRAG_search embed0 clientTie "q" 3 none none (mkRat 1 2),
      ∃ p ∈ [("maliki", hitM), ("hanafi", hitH)], e = mkMerged p) ∧
    (∃ chosen rest : List (String × Hit),
      List.Perm [("maliki", hitM), ("hanafi", hitH)] (chosen ++ rest) ∧
      FiqhRAG_search embed0 clientTie "q" 3 none none (mkRat 1 2) =
        chosen.map mkMerged ∧
      (∀ p ∈ rest, ∀ q ∈ chosen,
        pairKeyLe (sortKey p) (sortKey q) = true)) :=
  C1_amended_merge_rerank embed0 clientTie "q" 3 none none (mkRat 1 2)
    [("maliki", hitM), ("hanafi", hitH)] (by decide) (by decide)

set_option maxHeartbeats 2000000 in
/-- C2: `get_relevant_context` returns the empty string when the underlying
search (internal count 5, threshold 0.3) yields nothing; otherwise it is the
newline-join of a *prefix* of the formatted blocks in ranked order — whole
blocks only, appended only while the accumulated block length stays within
`max_context_length` — and its total length never exceeds the bound plus the
length of one block. -/
theorem C2_context_whole_blocks_and_bound (embed : String → List ℚ)
    (client : ClientSearch) (query : String) (L : Nat)
    (madhabs : Option (List String)) :
    (FiqhRAG_search embed client query 5 madhabs none (mkRat 3 10) = [] →
      get_relevant_context embed client query L madhabs = "") ∧
    (∃ k,
      get_relevant_context embed client query L madhabs =
        joinSep "\n"
          ((formatBlocks 1
            (FiqhRAG_search embed client query 5 madhabs none (mkRat 3 10))).take k) ∧
      sumLen ((formatBlocks 1
        (FiqhRAG_search embed client query 5 madhabs none (mkRat 3 10))).take k) ≤ L) ∧
    (∀ r0 rs,
      FiqhRAG_search embed client query 5 madhabs none (mkRat 3 10) = r0 :: rs →
      (get_relevant_context embed client query L madhabs).length ≤
        L + (formatBlock 1 r0).length) := by
  generalize hres : FiqhRAG_search embed client query 5 madhabs none (mkRat 3 10) = res
  have hlen5 : res.length ≤ 5 := by
    rw [← hres]
    exact FiqhRAG_search_length_le embed client query 5 madhabs none (mkRat 3 10)
  have hctx : get_relevant_context embed client query L madhabs =
      (if res.isEmpty then ""
       else joinSep "\n" (takeParts L 0 (formatBlocks 1 res))) := by
    simp only [get_relevant_context, hres]
  cases res with
  | nil =>
    simp only [List.isEmpty_nil, if_true] at hctx
    refine ⟨fun _ => hctx, ⟨0, ?_, ?_⟩, ?_⟩
    · simp [hctx, formatBlocks, joinSep]
    · simp [sumLen]
    · intro r0 rs h
      exact absurd h (by simp)
  | cons r0 rs =>
    simp only [List.isEmpty_cons, Bool.false_eq_true, if_false] at hctx
    obtain ⟨k, hk⟩ := takeParts_eq_take L (formatBlocks 1 (r0 :: rs)) 0
    have hsum : sumLen (takeParts L 0 (formatBlocks 1 (r0 :: rs))) ≤ L := by
      rcases takeParts_sum_le L (formatBlocks 1 (r0 :: rs)) 0 with h | h
      · omega
      · rw [h]; simp [sumLen]
    refine ⟨fun hcontra => absurd hcontra (by simp), ⟨k, ?_, ?_⟩, ?_⟩
    · rw [hctx, hk]
    · rw [← hk]; exact hsum
    · intro r0' rs' heq
      injection heq with e1 e2
      subst e1
      rw [hctx]
      by_cases hp : takeParts L 0 (formatBlocks 1 (r0 :: rs)) = []
      · rw [hp]
        simp [joinSep]
      · have hlen := joinSep_newline_length _ hp
        have hplen : (takeParts L 0 (formatBlocks 1 (r0 :: rs))).length ≤
            (formatBlocks 1 (r0 :: rs)).length :=
          takeParts_length_le L (formatBlocks 1 (r0 :: rs)) 0
        have hbl : (formatBlocks 1 (r0 :: rs)).length = (r0 :: rs).length :=
          formatBlocks_length 1 (r0 :: rs)
        have hfb : 4 ≤ (formatBlock 1 r0).length := formatBlock_length_ge 1 r0
        have he : (r0 :: rs).length = rs.length + 1 := by simp
        simp only [List.length_cons] at hlen5
        omega

/-- Witness for C2: empty search gives the empty context; a one-hit search
obeys the length bound. -/
theorem C2_witness :
    get_relevant_context embed0 clientOne " " 2000 none = "" ∧
    (get_relevant_context embed0 clientOne "q" 2000 none).length ≤
      2000 + (formatBlock 1 (mkMerged ("maliki", hitM))).length :=
  ⟨(C2_context_whole_blocks_and_bound embed0 clientOne " " 2000 none).1 (by decide),
   (C2_context_whole_blocks_and_bound embed0 clientOne "q" 2000 none).2.2
     (mkMerged ("maliki", hitM)) [] (by decide)⟩

theorem selectMadhabs_eq_filterMap {l : List String}
    (h : l.filterMap normalize_madhab_name ≠ []) :
    selectMadhabs (some l) = l.filterMap normalize_madhab_name := by
  have hlne : l ≠ [] := by
    intro e; subst e; exact h rfl
  have hbase : (if l.isEmpty = true then MADHAB_KEYS else l) = l := by
    rw [if_neg (by simp [hlne])]
  simp only [selectMadhabs]
  rw [filterMap_id_map, hbase, if_neg (by simp [h])]

theorem count_filterMap_eq (f : String → Option String) (k : String) :
    ∀ l : List String,
      (l.filterMap f).count k = l.countP (fun a => f a == some k) := by
  intro l
  induction l with
  | nil => rfl
  | cons a rest ih =>
    cases hfa : f a with
    | none =>
      simp only [List.filterMap_cons, hfa, List.countP_cons, ih]
      simp
    | some b =>
      simp only [List.filterMap_cons, hfa, List.count_cons, List.countP_cons, ih]
      simp [List.count_cons]

/-- C10: duplicate entries in the `madhabs` argument that normalize to the
same canonical key are *not* deduplicated — the selected-madhab list keeps
one occurrence per input entry (so that collection is searched once per
entry), and the merged output can contain the same hit twice, as in the
concrete run with `["maliki", "MALIKI"]`. -/
theorem C10_duplicates_not_deduplicated :
    (∀ (l : List String) (k : String),
        l.filterMap normalize_madhab_name ≠ [] →
        (selectMadhabs (some l)).count k =
          l.countP (fun m => normalize_madhab_name m == some k)) ∧
    selectMadhabs (some ["maliki", "MALIKI"]) = ["maliki", "maliki"] ∧
    FiqhRAG_search embed0 clientOne "q" 3 (some ["maliki", "MALIKI"]) none
        (mkRat 1 2) =
      [mkMerged ("maliki", hitM), mkMerged ("maliki", hitM)] := by
  refine ⟨?_, by decide, by decide⟩
  intro l k h
  rw [selectMadhabs_eq_filterMap h]
  exact count_filterMap_eq normalize_madhab_name k l

/-- Witness for C10: each of the two aliases `"maliki"`, `"MALIKI"` counts
once toward the selected list. -/
theorem C10_witness :
    (selectMadhabs (some ["maliki", "MALIKI"])).count "maliki" =
      ["maliki", "MALIKI"].countP
        (fun m => normalize_madhab_name m == some "maliki") :=
  C10_duplicates_not_deduplicated.1 ["maliki", "MALIKI"] "maliki" (by decide)

theorem dedupSeen_congr :
    ∀ (l s1 s2 : List String),
      (∀ x, s1.any (fun y => y == x) = s2.any (fun y => y == x)) →
      dedupSeen s1 l = dedupSeen s2 l := by
  intro l
  induction l with
  | nil => intro s1 s2 _; rfl
  | cons k ks ih =>
    intro s1 s2 h
    show (if s1.any (fun s => s == k) = true then dedupSeen s1 ks
          else k :: dedupSeen (k :: s1) ks) =
        (if s2.any (fun s => s == k) = true then dedupSeen s2 ks
          else k :: dedupSeen (k :: s2) ks)
    rw [h k]
    by_cases hk : s2.any (fun s => s == k) = true
    · rw [if_pos hk, if_pos hk]
      exact ih s1 s2 h
    · rw [if_neg hk, if_neg hk]
      congr 1
      exact ih (k :: s1) (k :: s2)
        (fun x => by simp only [List.any_cons, h x])

theorem dedupSeen_subset :
    ∀ (l seen : List String) (x : String), x ∈ dedupSeen seen l → x ∈ l := by
  intro l
  induction l with
  | nil => intro seen x h; exact absurd h (List.not_mem_nil x)
  | cons k ks ih =>
    intro seen x h
    by_cases hk : seen.any (fun s => s == k) = true
    · have : dedupSeen seen (k :: ks) = dedupSeen seen ks := by
        show (if seen.any (fun s => s == k) = true then _ else _) = _
        rw [if_pos hk]
      rw [this] at h
      exact List.mem_cons_of_mem k (ih seen x h)
    · have : dedupSeen seen (k :: ks) = k :: dedupSeen (k :: seen) ks := by
        show (if seen.any (fun s => s == k) = true then _ else _) = _
        rw [if_neg hk]
      rw [this] at h
      rcases List.mem_cons.mp h with rfl | h2
      · exact List.mem_cons_self x ks
      · exact List.mem_cons_of_mem k (ih (k :: seen) x h2)

theorem anyMap_fst (d : List (String × List MergedResult)) (k : String) :
    ((d.map Prod.fst).any (fun s => s == k)) = d.any (fun p => p.1 == k) := by
  induction d with
  | nil => rfl
  | cons p rest ih => simp only [List.map_cons, List.any_cons, ih]

theorem smhs_fold (rawSearch : String → Except Unit (List MergedResult)) :
    ∀ (sel : List String) (d : List (String × List MergedResult)),
      (∀ p ∈ d, p.2 = valOf rawSearch p.1) →
      sel.foldl (fun d k => dictInsert d k (valOf rawSearch k)) d =
        d ++ (dedupSeen (d.map Prod.fst) sel).map
          (fun k => (k, valOf rawSearch k)) := by
  intro sel
  induction sel with
  | nil => intro d _; simp [dedupSeen]
  | cons k ks ih =>
    intro d hd
    simp only [List.foldl_cons]
    by_cases hk : d.any (fun p => p.1 == k) = true
    · have hins : dictInsert d k (valOf rawSearch k) = d := by
        unfold dictInsert
        rw [if_pos hk]
        have hpt : ∀ p ∈ d,
            (if p.1 == k then (k, valOf rawSearch k) else p) = p := by
          intro p hp
          by_cases hpk : (p.1 == k) = true
          · rw [if_pos hpk]
            have hpk2 : p.1 = k := by simpa using hpk
            have hv := hd p hp
            obtain ⟨p1, p2⟩ := p
            simp only at hpk2 hv
            subst hpk2
            rw [hv]
          · rw [if_neg hpk]
        rw [List.map_congr_left hpt]
        simp
      rw [hins, ih d hd]
      have hseen : dedupSeen (d.map Prod.fst) (k :: ks) =
          dedupSeen (d.map Prod.fst) ks := by
        show (if (d.map Prod.fst).any (fun s => s == k) = true then _ else _) = _
        rw [anyMap_fst]
        exact if_pos hk
      rw [hseen]
    · have hins : dictInsert d k (valOf rawSearch k) =
          d ++ [(k, valOf rawSearch k)] := by
        unfold dictInsert
        rw [if_neg hk]
      rw [hins]
      have hd2 : ∀ p ∈ d ++ [(k, valOf rawSearch k)],
          p.2 = valOf rawSearch p.1 := by
        intro p hp
        rcases List.mem_append.mp hp with h | h
        · exact hd p h
        · simp only [List.mem_singleton] at h
          subst h
          rfl
      rw [ih (d ++ [(k, valOf rawSearch k)]) hd2]
      have hseen : dedupSeen (d.map Prod.fst) (k :: ks) =
          k :: dedupSeen (k :: d.map Prod.fst) ks := by
        show (if (d.map Prod.fst).any (fun s => s == k) = true then _ else _) = _
        rw [anyMap_fst]
        exact if_neg hk
      rw [hseen]
      have hmap : (d ++ [(k, valOf rawSearch k)]).map Prod.fst =
          d.map Prod.fst ++ [k] := by simp
      rw [hmap]
      have hcongr : dedupSeen (d.map Prod.fst ++ [k]) ks =
          dedupSeen (k :: d.map Prod.fst) ks :=
        dedupSeen_congr ks _ _
          (fun x => by
            simp only [List.any_append, List.any_cons, List.any_nil,
              Bool.or_false]
            exact Bool.or_comm _ _)
      rw [hcongr]
      simp

theorem FiqhRAG_search_single_madhab (embed : String → List ℚ)
    (client : ClientSearch) (query : String) (n : Nat) (cf : Option String)
    (thr : ℚ) {k : String} (hk : k ∈ MADHAB_KEYS) :
    ∀ e ∈ FiqhRAG_search embed client query n (some [k]) cf thr,
      e.metadata.madhab = k := by
  intro e he
  have hcol := collection_for_madhab_canonical hk
  simp only [FiqhRAG_search] at he
  by_cases hq : stripStr query = ""
  · rw [if_pos hq] at he
    exact absurd he (List.not_mem_nil e)
  · rw [if_neg hq, selectMadhabs_single hk] at he
    cases hcl : client (k ++ "_fiqh") (embed query) n cf thr with
    | ok rs =>
      have hcp : collectPairs client (embed query) n cf thr [k] =
          Except.ok (rs.map (fun r => (k, r))) := by
        simp only [collectPairs, hcol, hcl, List.append_nil]
      rw [hcp] at he
      obtain ⟨p, hp, rfl⟩ := List.mem_map.mp he
      have hp2 : p ∈ rs.map (fun r => (k, r)) :=
        (List.perm_insertionSort descBefore _).mem_iff.mp (List.take_subset n _ hp)
      obtain ⟨r, _, rfl⟩ := List.mem_map.mp hp2
      rfl
    | error u =>
      have hcp : collectPairs client (embed query) n cf thr [k] =
          Except.ok [] := by
        simp only [collectPairs, hcol, hcl, List.nil_append]
      rw [hcp] at he
      simp at he

/-- C9: `search_madhabs_separately` returns an association table whose key
sequence is exactly the normalized requested madhabs in first-occurrence
order (all four when none are given or when none normalize); each key's list
is exactly the outcome of an independent single-madhab search, a raising
per-madhab search degrading to `[]` for that key rather than aborting; and
when the per-madhab calls are the RAG engine restricted to one school,
every returned entry carries that school — results are never merged across
schools. -/
theorem C9_separate_per_madhab_searches :
    (∀ (rawSearch : String → Except Unit (List MergedResult))
        (madhabs : Option (List String)),
        search_madhabs_separately rawSearch madhabs =
          (dedupFirst (selectMadhabs madhabs)).map
            (fun k => (k, valOf rawSearch k))) ∧
    (∀ (rawSearch : String → Except Unit (List MergedResult))
        (madhabs : Option (List String)) (k : String) (v : List MergedResult),
        (k, v) ∈ search_madhabs_separately rawSearch madhabs →
        rawSearch k = Except.error () → v = []) ∧
    (∀ rawSearch : String → Except Unit (List MergedResult),
        (search_madhabs_separately rawSearch none).map Prod.fst = MADHAB_KEYS) ∧
    (∀ (rawSearch : String → Except Unit (List MergedResult)) (l : List String),
        (∀ m ∈ l, normalize_madhab_name m = none) →
        (search_madhabs_separately rawSearch (some l)).map Prod.fst =
          MADHAB_KEYS) ∧
    (∀ (embed : String → List ℚ) (client : ClientSearch) (query : String)
        (nPer : Nat) (madhabs : Option (List String)) (k : String)
        (v : List MergedResult),
        (k, v) ∈ search_madhabs_separately
          (ragSearchCall embed client query nPer) madhabs →
        ∀ e ∈ v, e.metadata.madhab = k) := by
  have hchar : ∀ (rawSearch : String → Except Unit (List MergedResult))
      (madhabs : Option (List String)),
      search_madhabs_separately rawSearch madhabs =
        (dedupFirst (selectMadhabs madhabs)).map
          (fun k => (k, valOf rawSearch k)) := by
    intro rawSearch madhabs
    have h0 : search_madhabs_separately rawSearch madhabs =
        (selectMadhabs madhabs).foldl
          (fun d k => dictInsert d k (valOf rawSearch k)) [] := rfl
    rw [h0, smhs_fold rawSearch (selectMadhabs madhabs) []
      (by intro p hp; exact absurd hp (List.not_mem_nil p))]
    simp [dedupFirst]
  have hval : ∀ (rawSearch : String → Except Unit (List MergedResult))
      (madhabs : Option (List String)) (k : String) (v : List MergedResult),
      (k, v) ∈ search_madhabs_separately rawSearch madhabs →
      v = valOf rawSearch k ∧ k ∈ selectMadhabs madhabs := by
    intro rawSearch madhabs k v hm
    rw [hchar rawSearch madhabs] at hm
    obtain ⟨k2, hk2, he⟩ := List.mem_map.mp hm
    injection he with e1 e2
    subst e1
    subst e2
    exact ⟨rfl, dedupSeen_subset _ _ _ hk2⟩
  refine ⟨hchar, ?_, ?_, ?_, ?_⟩
  · intro rawSearch madhabs k v hm herr
    rcases hval rawSearch madhabs k v hm with ⟨hv, -⟩
    rw [hv]
    unfold valOf
    rw [herr]
  · intro rawSearch
    rw [hchar rawSearch none]
    simp only [List.map_map]
    have : (Prod.fst ∘ fun k => (k, valOf rawSearch k)) = fun k => k := rfl
    rw [this]
    rw [selectMadhabs_none_eq]
    simp [dedupFirst]
    decide
  · intro rawSearch l hl
    rw [hchar rawSearch (some l)]
    simp only [List.map_map]
    have : (Prod.fst ∘ fun k => (k, valOf rawSearch k)) = fun k => k := rfl
    rw [this]
    rw [selectMadhabs_all_unrecognized hl]
    simp [dedupFirst]
    decide
  · intro embed client query nPer madhabs k v hm e hev
    rcases hval (ragSearchCall embed client query nPer) madhabs k v hm
      with ⟨hv, hksel⟩
    have hkcan := selectMadhabs_mem hksel
    rw [hv] at hev
    unfold valOf ragSearchCall at hev
    exact FiqhRAG_search_single_madhab embed client query nPer none (mkRat 3 10)
      hkcan e hev

/-- Witness for C9: all four keys appear even when every requested name is
unrecognized and one per-madhab search raises; and a concrete maliki entry
carries the maliki key. -/
theorem C9_witness :
    (search_madhabs_separately rawFail (some ["xyz"])).map Prod.fst =
      MADHAB_KEYS ∧
    (mkMerged ("maliki", hitM)).metadata.madhab = "maliki" :=
  ⟨C9_separate_per_madhab_searches.2.2.2.1 rawFail ["xyz"] (by decide),
   C9_separate_per_madhab_searches.2.2.2.2 embed0 clientOne "q" 5 none
     "maliki" [mkMerged ("maliki", hitM)] (by decide)
     (mkMerged ("maliki", hitM)) (by decide)⟩
